import Mathlib

/-!
Verification of the PV-diagram movie pipeline (`PVDiagramMovieMaker.py`).

The script has two phases.  Phase 1 opens a FITS cube `data` of shape
`(v, y, x)` (spectral, spatial-A, spatial-B), computes
`moment0_map = np.sum(data, axis=0)` once, and for each `i in range(x)`
extracts `pv_slice = data[:, :, i]`, renders a two-panel figure and saves it
as `f'NGC7538_CII_pv_diagram_with_moment0_{i:03d}.png'`.  The whole phase is
wrapped in `try/except` handlers that only print a message.  Phase 2 lists
the directory, sorts it with `natsorted`, keeps files ending in `.png`,
raises `ValueError` when none remain, reads the first image to fix the video
size, and writes every image to a `cv2.VideoWriter` unconditionally.

Everything below is a shallow embedding of that script: filenames are
`List Char`, arrays are dimension-tagged index functions, `natsorted` is an
insertion sort over the natsort key (maximal digit runs read as numbers,
other runs compared by code point).
-/

namespace PVMovie

/-- Little-endian decimal digits, driven by a fuel argument so that the
definition is structural (any `fuel ≥ n` gives the digits of `n`). -/
def digitsLEAux (fuel n : Nat) : List Nat :=
  match fuel with
  | 0 => [n]
  | fuel + 1 => if n < 10 then [n] else n % 10 :: digitsLEAux fuel (n / 10)

/-- Little-endian decimal digits of `n` (never empty; `0 ↦ [0]`). -/
def digitsLE (n : Nat) : List Nat := digitsLEAux n n

/-- Big-endian decimal digits of `n`, as printed. -/
def decimalDigits (n : Nat) : List Nat := (digitsLE n).reverse

/-- The character of one decimal digit. -/
def digitChar (d : Nat) : Char := Char.ofNat (48 + d)

/-- `f'{i:03d}'`: the decimal digits of `i`, zero-padded on the left to
width 3; wider than 3 characters (never truncated) when `i ≥ 1000`. -/
def pad3Chars (i : Nat) : List Char :=
  List.replicate (3 - (decimalDigits i).length) '0' ++ (decimalDigits i).map digitChar

/-- The fixed part of every frame filename, from the `plt.savefig` call. -/
def frameStem : List Char := "NGC7538_CII_pv_diagram_with_moment0_".toList

/-- The `.png` extension. -/
def pngExt : List Char := ".png".toList

/-- The filename written for cut index `i`:
`f'NGC7538_CII_pv_diagram_with_moment0_{i:03d}.png'`. -/
def frameName (i : Nat) : List Char := frameStem ++ pad3Chars i ++ pngExt

/-- The frame filenames of a full run over a cube with `B` cut indices,
in generation order. -/
def frameNames (B : Nat) : List (List Char) := (List.range B).map frameName

/-- The numeric value a digit-run parser assigns to a list of digit
characters (the code-point value of each character, minus 48). -/
def digitRunVal (ds : List Char) : Nat :=
  ds.foldl (fun v c => v * 10 + (c.toNat - 48)) 0

/-- One natsort token: a non-digit run (as code points) or a digit run's
numeric value. -/
inductive NTok : Type
  | str (cs : List Nat)
  | num (n : Nat)
deriving DecidableEq

/-- Feed one character to the tokenizer state (tokens in reverse order,
the current run at the head). -/
def pushChar (acc : List NTok) (c : Char) : List NTok :=
  if c.isDigit then
    match acc with
    | NTok.num n :: rest => NTok.num (n * 10 + (c.toNat - 48)) :: rest
    | _ => NTok.num (c.toNat - 48) :: acc
  else
    match acc with
    | NTok.str s :: rest => NTok.str (s ++ [c.toNat]) :: rest
    | _ => NTok.str [c.toNat] :: acc

/-- The natsort key of a filename. -/
def natkey (f : List Char) : List NTok := (f.foldl pushChar []).reverse

/-- Strict lexicographic comparison of two code-point lists. -/
def codesLTb : List Nat → List Nat → Bool
  | [], [] => false
  | [], _ :: _ => true
  | _ :: _, [] => false
  | a :: as, b :: bs =>
    if a < b then true else if b < a then false else codesLTb as bs

/-- Strict comparison of two tokens (digit runs numerically; a digit run
sorts before a non-digit run, as an empty leading string token would in
the natsort key tuple). -/
def tokLTb : NTok → NTok → Bool
  | NTok.num m, NTok.num n => decide (m < n)
  | NTok.num _, NTok.str _ => true
  | NTok.str _, NTok.num _ => false
  | NTok.str s, NTok.str t => codesLTb s t

/-- Strict lexicographic comparison of two natsort keys. -/
def keyLTb : List NTok → List NTok → Bool
  | [], [] => false
  | [], _ :: _ => true
  | _ :: _, [] => false
  | a :: as, b :: bs =>
    if tokLTb a b then true else if tokLTb b a then false else keyLTb as bs

/-- The (non-strict) natsort order on filenames used by `natsorted`. -/
def natLE (a b : List Char) : Prop := keyLTb (natkey b) (natkey a) = false

instance : DecidableRel natLE := fun _ _ =>
  inferInstanceAs (Decidable (_ = false))

/-- `natsorted(file_list)`: sort under the natsort order.  Insertion sort is
used as the executable model of Python's (stable) sort. -/
def natsorted (file_list : List (List Char)) : List (List Char) :=
  List.insertionSort natLE file_list

/-- `f.endswith('.png')`. -/
def endsWithPng (f : List Char) : Bool := decide (f.reverse.take 4 = pngExt.reverse)

/-- The FrameCollector of the script: `natsorted` the directory listing,
then keep the entries ending in `.png` (lines 84 and 87). -/
def collect (file_list : List (List Char)) : List (List Char) :=
  (natsorted file_list).filter endsWithPng

/-- The tokens of the fixed filename stem `NGC7538_CII_pv_diagram_with_moment0_`:
`NGC`, `7538`, `_CII_pv_diagram_with_moment`, `0`, `_` (as code points /
numeric values). -/
def stemToks : List NTok :=
  [NTok.str [78, 71, 67], NTok.num 7538,
   NTok.str [95, 67, 73, 73, 95, 112, 118, 95, 100, 105, 97, 103, 114, 97,
             109, 95, 119, 105, 116, 104, 95, 109, 111, 109, 101, 110, 116],
   NTok.num 0, NTok.str [95]]

/-- The token of the `.png` extension. -/
def pngTok : NTok := NTok.str [46, 112, 110, 103]

/-- The Python error kinds the model distinguishes. -/
inductive PyErr : Type
  | indexError
  | valueError
  | fileNotFound
  | genericError
deriving DecidableEq

/-- The data cube: `v, y, x = data.shape` — spectral extent `V`, spatial
extents `A` (declination) and `B` (right ascension, the cut axis), and the
samples as an index function (meaningful on `[0,V) × [0,A) × [0,B)`). -/
structure Cube (α : Type) where
  V : Nat
  A : Nat
  B : Nat
  data : Nat → Nat → Nat → α

/-- A 2-D array with its shape. -/
structure Arr2 (α : Type) where
  rows : Nat
  cols : Nat
  entry : Nat → Nat → α

variable {α : Type}

/-- `moment0_map = np.sum(data, axis=0)` (line 32): collapse the spectral
axis by summation; shape `(A, B)`. -/
def moment0_map [AddCommMonoid α] (c : Cube α) : Arr2 α :=
  { rows := c.A, cols := c.B,
    entry := fun a b => ((List.range c.V).map fun v => c.data v a b).sum }

/-- `data[:, :, i]` for an in-range index `i < B`: the PV slice, of shape
`(V, A)`. -/
def sliceAt (c : Cube α) (i : Nat) : Arr2 α :=
  { rows := c.V, cols := c.A, entry := fun v a => c.data v a i }

/-- `data[:, :, i]` under numpy's basic-indexing semantics for an arbitrary
integer index: in-range indices select the column, negative indices in
`[-B, 0)` wrap around to `B + i`, and anything else raises `IndexError`. -/
def pv_slice (c : Cube α) (i : Int) : Except PyErr (Arr2 α) :=
  if 0 ≤ i ∧ i < (c.B : Int) then Except.ok (sliceAt c i.toNat)
  else if -(c.B : Int) ≤ i ∧ i < 0 then Except.ok (sliceAt c (i + c.B).toNat)
  else Except.error PyErr.indexError

/-- One composite frame: the cut index, the filename it is saved under, and
the contents of its two panels. -/
structure Frame (α : Type) where
  idx : Nat
  name : List Char
  panel1 : Arr2 α
  panel2 : Arr2 α

/-- Lines 40-62: render the moment-0 map and the slice side by side and
save the figure under the zero-padded name for index `i`. -/
def composeFrame (m : Arr2 α) (s : Arr2 α) (i : Nat) : Frame α :=
  { idx := i, name := frameName i, panel1 := m, panel2 := s }

/-- Lines 32-64: compute the moment-0 map once, then `for i in range(x)`
extract the slice and compose a frame; finally report `x` frames created. -/
def sequenceDriverRun [AddCommMonoid α] (c : Cube α) : List (Frame α) × Nat :=
  let m := moment0_map c
  (((List.range c.B).map fun i => composeFrame m (sliceAt c i) i), c.B)

/-- An image as decoded by `cv2.imread`: `height, width, layers = frame.shape`. -/
structure Image where
  height : Nat
  width : Nat
  layers : Nat
deriving DecidableEq

/-- The output container: the size the writer was opened with, the frame
rate, and the sequence of frames handed to `video.write` (each written
unmodified — the script neither checks nor resizes them). -/
structure Video where
  width : Nat
  height : Nat
  fps : Nat
  frames : List Image
deriving DecidableEq

/-- Lines 81-110: `natsorted` the listing, keep `.png` files, raise
`ValueError` when none remain; otherwise read the first image for the
video size, open the writer at 10 fps and write every image to it.
`imread` stands for `cv2.imread` on the directory's files. -/
def assemblyPhase (file_list : List (List Char)) (imread : List Char → Image) :
    Except PyErr Video :=
  match collect file_list with
  | [] => Except.error PyErr.valueError
  | first :: rest =>
      Except.ok
        { width := (imread first).width, height := (imread first).height,
          fps := 10, frames := (first :: rest).map imread }

/-- Messages the script prints. -/
inductive Msg : Type
  | created (n : Nat)
  | errorCaught (e : PyErr)
deriving DecidableEq

/-- The whole script: phase 1's outcome (the `try` block, lines 14-64,
abstracted as either a frame count or the caught exception) is only
printed — lines 66-69 catch every exception — and phase 2 then runs
unconditionally (lines 73-112). -/
def wholeScript (phase1 : Except PyErr Nat) (file_list : List (List Char))
    (imread : List Char → Image) : List Msg × Except PyErr Video :=
  (match phase1 with
    | Except.ok n => [Msg.created n]
    | Except.error e => [Msg.errorCaught e],
   assemblyPhase file_list imread)

/-- The process exit status: non-zero only for an uncaught exception. -/
def scriptExitCode (r : Except PyErr Video) : Nat :=
  match r with
  | Except.ok _ => 0
  | Except.error _ => 1

/-- A 1×1×1 cube of constant value 5. -/
def cube1 : Cube Int := { V := 1, A := 1, B := 1, data := fun _ _ _ => 5 }

/-- A cube whose cut axis has 1001 indices, one more than 10³. -/
def cube1001 : Cube Int := { V := 1, A := 1, B := 1001, data := fun _ _ _ => 0 }

/-- A small synthetic cube of shape (2, 2, 2). -/
def cube222 : Cube Int :=
  { V := 2, A := 2, B := 2, data := fun v a b => 100 * v + 10 * a + b }

/-- A 200×100 image. -/
def imgBig : Image := { height := 100, width := 200, layers := 3 }

/-- A 60×50 image: dimensions differ from `imgBig`. -/
def imgSmall : Image := { height := 50, width := 60, layers := 3 }

/-- A png filename outside the frame naming scheme. -/
def fileA : List Char := "a.png".toList

/-- Another png filename outside the frame naming scheme. -/
def fileB : List Char := "b.png".toList

/-- A directory reader giving `fileA` the big image and anything else the
small one. -/
def read2 : List Char → Image := fun f => if f = fileA then imgBig else imgSmall

/-- A png file that carries no frame-scheme stem at all. -/
def otherPng : List Char := "other.png".toList

/-- A non-png directory entry (the output movie itself). -/
def movieFile : List Char := "NGC7538_VerticalPVDiagram.mp4".toList

/-- A reader for directories whose images are never consulted. -/
def defaultRead : List Char → Image := fun _ => { height := 0, width := 0, layers := 0 }

/-! ## Theorems -/

theorem digitsLEAux_eq :
    ∀ fuel₁ fuel₂ n, n ≤ fuel₁ → n ≤ fuel₂ →
      digitsLEAux fuel₁ n = digitsLEAux fuel₂ n := by
  intro fuel₁
  induction fuel₁ with
  | zero =>
    intro fuel₂ n h1 _
    have hn : n = 0 := by omega
    subst hn
    cases fuel₂ with
    | zero => rfl
    | succ f => simp [digitsLEAux]
  | succ f₁ ih =>
    intro fuel₂ n h1 h2
    cases fuel₂ with
    | zero =>
      have hn : n = 0 := by omega
      subst hn
      simp [digitsLEAux]
    | succ f₂ =>
      simp only [digitsLEAux]
      by_cases hn : n < 10
      · rw [if_pos hn, if_pos hn]
      · rw [if_neg hn, if_neg hn]
        have hdiv := Nat.div_lt_self (show 0 < n by omega) (show 1 < 10 by omega)
        rw [ih f₂ (n / 10) (by omega) (by omega)]

/-- The recurrence `digitsLE` satisfies. -/
theorem digitsLE_eq (n : Nat) :
    digitsLE n = if n < 10 then [n] else n % 10 :: digitsLE (n / 10) := by
  unfold digitsLE
  cases n with
  | zero => simp [digitsLEAux]
  | succ m =>
    simp only [digitsLEAux]
    by_cases hn : m + 1 < 10
    · rw [if_pos hn, if_pos hn]
    · rw [if_neg hn, if_neg hn]
      have hdiv := Nat.div_lt_self (show 0 < m + 1 by omega) (show 1 < 10 by omega)
      rw [digitsLEAux_eq m ((m + 1) / 10) ((m + 1) / 10) (by omega) (by omega)]

theorem digitsLE_ne_nil (n : Nat) : digitsLE n ≠ [] := by
  rw [digitsLE_eq]
  split <;> simp

theorem digitsLE_lt_ten (n : Nat) : ∀ d ∈ digitsLE n, d < 10 := by
  induction n using Nat.strong_induction_on with
  | _ n ih =>
    rw [digitsLE_eq]
    split
    · intro d hd
      simp only [List.mem_singleton] at hd
      omega
    · intro d hd
      rcases List.mem_cons.mp hd with h | h
      · omega
      · exact ih (n / 10) (Nat.div_lt_self (by omega) (by omega)) d h

theorem foldr_digitsLE (n : Nat) :
    List.foldr (fun d v => v * 10 + d) 0 (digitsLE n) = n := by
  induction n using Nat.strong_induction_on with
  | _ n ih =>
    rw [digitsLE_eq]
    split
    · simp
    · rw [List.foldr_cons, ih (n / 10) (Nat.div_lt_self (by omega) (by omega))]
      omega

/-- Reading the big-endian digits back with the usual accumulator recovers
the number. -/
theorem foldl_decimalDigits (n : Nat) :
    List.foldl (fun v d => v * 10 + d) 0 (decimalDigits n) = n := by
  rw [decimalDigits, List.foldl_reverse]
  exact foldr_digitsLE n

theorem digitChar_toNat {d : Nat} (hd : d < 10) : (digitChar d).toNat = 48 + d := by
  interval_cases d <;> decide

theorem digitChar_isDigit {d : Nat} (hd : d < 10) : (digitChar d).isDigit = true := by
  interval_cases d <;> decide

theorem pad3Chars_isDigit (i : Nat) : ∀ c ∈ pad3Chars i, c.isDigit = true := by
  intro c hc
  rcases List.mem_append.mp hc with h | h
  · rw [List.eq_of_mem_replicate h]; decide
  · rcases List.mem_map.mp h with ⟨d, hd, rfl⟩
    exact digitChar_isDigit (digitsLE_lt_ten i d (List.mem_reverse.mp hd))

theorem pad3Chars_ne_nil (i : Nat) : pad3Chars i ≠ [] := by
  intro h
  rcases List.append_eq_nil.mp h with ⟨-, h2⟩
  have := congrArg List.length h2
  simp [decimalDigits] at this
  exact digitsLE_ne_nil i this

theorem length_pad3Chars (i : Nat) : 3 ≤ (pad3Chars i).length := by
  have h1 : 1 ≤ (decimalDigits i).length := by
    rcases h : decimalDigits i with _ | ⟨d, ds⟩
    · have := congrArg List.length h
      simp [decimalDigits] at this
      exact absurd this (digitsLE_ne_nil i)
    · simp
  simp only [pad3Chars, List.length_append, List.length_replicate, List.length_map]
  omega

/-- The zero-padded index parses back to the index: padding never loses
information, whatever the index (in particular for `i ≥ 1000`). -/
theorem digitRunVal_pad3Chars (i : Nat) : digitRunVal (pad3Chars i) = i := by
  have hzeros : ∀ k, List.foldl (fun v c => v * 10 + (c.toNat - 48)) 0
      (List.replicate k '0') = 0 := by
    intro k
    induction k with
    | zero => rfl
    | succ k ih => simpa [List.replicate_succ] using ih
  have hmap : ∀ (l : List Nat), (∀ d ∈ l, d < 10) → ∀ a : Nat,
      List.foldl (fun v c => v * 10 + (c.toNat - 48)) a (l.map digitChar) =
      List.foldl (fun v d => v * 10 + d) a l := by
    intro l
    induction l with
    | nil => intro _ a; rfl
    | cons d ds ih =>
      intro hl a
      have hd : d < 10 := hl d (List.mem_cons_self d ds)
      simp only [List.map_cons, List.foldl_cons]
      rw [digitChar_toNat hd]
      have : 48 + d - 48 = d := by omega
      rw [this]
      exact ih (fun x hx => hl x (List.mem_cons_of_mem d hx)) _
  rw [digitRunVal, pad3Chars, List.foldl_append, hzeros,
    hmap (decimalDigits i) (fun d hd => digitsLE_lt_ten i d (List.mem_reverse.mp hd))]
  exact foldl_decimalDigits i

theorem codesLTb_irrefl (s : List Nat) : codesLTb s s = false := by
  induction s with
  | nil => rfl
  | cons a as ih => simp [codesLTb, ih]

theorem tokLTb_irrefl (t : NTok) : tokLTb t t = false := by
  cases t with
  | str s => simpa [tokLTb] using codesLTb_irrefl s
  | num n => simp [tokLTb]

theorem keyLTb_irrefl (k : List NTok) : keyLTb k k = false := by
  induction k with
  | nil => rfl
  | cons a as ih => simp [keyLTb, tokLTb_irrefl, ih]

theorem codesLTb_trans {x y z : List Nat} (h1 : codesLTb x y = true)
    (h2 : codesLTb y z = true) : codesLTb x z = true := by
  induction x generalizing y z with
  | nil =>
    cases y with
    | nil => exact absurd h1 (by simp [codesLTb])
    | cons b bs =>
      cases z with
      | nil => exact absurd h2 (by simp [codesLTb])
      | cons c cs => rfl
  | cons a as ih =>
    cases y with
    | nil => exact absurd h1 (by simp [codesLTb])
    | cons b bs =>
      cases z with
      | nil => exact absurd h2 (by simp [codesLTb])
      | cons c cs =>
        simp only [codesLTb] at h1 h2 ⊢
        by_cases hab : a < b
        · by_cases hbc : b < c
          · rw [if_pos (by omega)]
          · by_cases hcb : c < b
            · rw [if_neg hbc, if_pos hcb] at h2
              exact absurd h2 (by simp)
            · rw [if_pos (by omega)]
        · by_cases hba : b < a
          · rw [if_neg hab, if_pos hba] at h1
            exact absurd h1 (by simp)
          · have hab2 : a = b := by omega
            subst hab2
            rw [if_neg hab, if_neg hba] at h1
            by_cases hac : a < c
            · rw [if_pos hac]
            · by_cases hca : c < a
              · rw [if_neg hac, if_pos hca] at h2
                exact absurd h2 (by simp)
              · rw [if_neg hac, if_neg hca] at h2 ⊢
                exact ih h1 h2

theorem codesLTb_connex {x y : List Nat} (h1 : codesLTb x y = false)
    (h2 : codesLTb y x = false) : x = y := by
  induction x generalizing y with
  | nil =>
    cases y with
    | nil => rfl
    | cons b bs => exact absurd h1 (by simp [codesLTb])
  | cons a as ih =>
    cases y with
    | nil => exact absurd h2 (by simp [codesLTb])
    | cons b bs =>
      simp only [codesLTb] at h1 h2
      by_cases hab : a < b
      · rw [if_pos hab] at h1
        exact absurd h1 (by simp)
      · by_cases hba : b < a
        · rw [if_pos hba] at h2
          exact absurd h2 (by simp)
        · have hab2 : a = b := by omega
          subst hab2
          rw [if_neg hab, if_neg hba] at h1 h2
          rw [ih h1 h2]

theorem tokLTb_trans {x y z : NTok} (h1 : tokLTb x y = true)
    (h2 : tokLTb y z = true) : tokLTb x z = true := by
  cases x with
  | str s =>
    cases y with
    | str t =>
      cases z with
      | str u =>
        simp only [tokLTb] at h1 h2 ⊢
        exact codesLTb_trans h1 h2
      | num n => exact absurd h2 (by simp [tokLTb])
    | num n => exact absurd h1 (by simp [tokLTb])
  | num m =>
    cases y with
    | str t =>
      cases z with
      | str u => simp [tokLTb]
      | num k => exact absurd h2 (by simp [tokLTb])
    | num n =>
      cases z with
      | str u => simp [tokLTb]
      | num k =>
        simp only [tokLTb, decide_eq_true_eq] at h1 h2 ⊢
        omega

theorem tokLTb_connex {x y : NTok} (h1 : tokLTb x y = false)
    (h2 : tokLTb y x = false) : x = y := by
  cases x with
  | str s =>
    cases y with
    | str t =>
      simp only [tokLTb] at h1 h2
      rw [codesLTb_connex h1 h2]
    | num n => exact absurd h2 (by simp [tokLTb])
  | num m =>
    cases y with
    | str t => exact absurd h1 (by simp [tokLTb])
    | num n =>
      simp only [tokLTb, decide_eq_false_iff_not] at h1 h2
      have : m = n := by omega
      rw [this]

theorem keyLTb_trans {x y z : List NTok} (h1 : keyLTb x y = true)
    (h2 : keyLTb y z = true) : keyLTb x z = true := by
  induction x generalizing y z with
  | nil =>
    cases y with
    | nil => exact absurd h1 (by simp [keyLTb])
    | cons b bs =>
      cases z with
      | nil => exact absurd h2 (by simp [keyLTb])
      | cons c cs => rfl
  | cons a as ih =>
    cases y with
    | nil => exact absurd h1 (by simp [keyLTb])
    | cons b bs =>
      cases z with
      | nil => exact absurd h2 (by simp [keyLTb])
      | cons c cs =>
        simp only [keyLTb] at h1 h2 ⊢
        by_cases hab : tokLTb a b = true
        · by_cases hbc : tokLTb b c = true
          · rw [if_pos (tokLTb_trans hab hbc)]
          · by_cases hcb : tokLTb c b = true
            · rw [if_neg hbc, if_pos hcb] at h2
              exact absurd h2 (by simp)
            · have hbc2 : b = c :=
                tokLTb_connex (by simpa using hbc) (by simpa using hcb)
              subst hbc2
              rw [if_pos hab]
        · by_cases hba : tokLTb b a = true
          · rw [if_neg hab, if_pos hba] at h1
            exact absurd h1 (by simp)
          · have hab2 : a = b :=
              tokLTb_connex (by simpa using hab) (by simpa using hba)
            subst hab2
            rw [if_neg hab, if_neg hba] at h1
            by_cases hac : tokLTb a c = true
            · rw [if_pos hac]
            · by_cases hca : tokLTb c a = true
              · rw [if_neg hac, if_pos hca] at h2
                exact absurd h2 (by simp)
              · rw [if_neg hac, if_neg hca] at h2 ⊢
                exact ih h1 h2

theorem keyLTb_connex {x y : List NTok} (h1 : keyLTb x y = false)
    (h2 : keyLTb y x = false) : x = y := by
  induction x generalizing y with
  | nil =>
    cases y with
    | nil => rfl
    | cons b bs => exact absurd h1 (by simp [keyLTb])
  | cons a as ih =>
    cases y with
    | nil => exact absurd h2 (by simp [keyLTb])
    | cons b bs =>
      simp only [keyLTb] at h1 h2
      by_cases hab : tokLTb a b = true
      · rw [if_pos hab] at h1
        exact absurd h1 (by simp)
      · by_cases hba : tokLTb b a = true
        · rw [if_pos hba] at h2
          exact absurd h2 (by simp)
        · have hab2 : a = b :=
            tokLTb_connex (by simpa using hab) (by simpa using hba)
          subst hab2
          rw [if_neg hab, if_neg hba] at h1 h2
          rw [ih h1 h2]

theorem keyLTb_asymm {x y : List NTok} (h : keyLTb x y = true) :
    keyLTb y x = false := by
  rcases hyx : keyLTb y x with _ | _
  · rfl
  · exact absurd (keyLTb_trans h hyx) (by simp [keyLTb_irrefl])

theorem natLE_total : IsTotal (List Char) natLE := by
  constructor
  intro a b
  unfold natLE
  rcases h : keyLTb (natkey b) (natkey a) with _ | _
  · exact Or.inl rfl
  · exact Or.inr (keyLTb_asymm h)

theorem natLE_trans : IsTrans (List Char) natLE := by
  constructor
  intro a b c hab hbc
  unfold natLE at hab hbc ⊢
  by_contra hcon
  have h : keyLTb (natkey c) (natkey a) = true := by simpa using hcon
  rcases hba : keyLTb (natkey a) (natkey b) with _ | _
  · have : natkey a = natkey b := keyLTb_connex hba hab
    rw [this] at h
    exact absurd h (by simp [hbc])
  · exact absurd (keyLTb_trans h hba) (by simp [hbc])

theorem endsWithPng_frameName (i : Nat) : endsWithPng (frameName i) = true := by
  unfold endsWithPng frameName
  rw [List.reverse_append, List.take_left' (by rfl)]
  simp

theorem foldl_pushChar_num_run (ds : List Char) (hd : ∀ c ∈ ds, c.isDigit = true) :
    ∀ (m : Nat) (acc : List NTok),
      List.foldl pushChar (NTok.num m :: acc) ds =
        NTok.num (List.foldl (fun v c => v * 10 + (c.toNat - 48)) m ds) :: acc := by
  induction ds with
  | nil => intro m acc; rfl
  | cons c cs ih =>
    intro m acc
    have hc : c.isDigit = true := hd c (List.mem_cons_self c cs)
    simp only [List.foldl_cons]
    rw [show pushChar (NTok.num m :: acc) c = NTok.num (m * 10 + (c.toNat - 48)) :: acc by
      simp [pushChar, hc]]
    exact ih (fun x hx => hd x (List.mem_cons_of_mem c hx)) _ _

theorem foldl_pushChar_str_run (c : Char) (ds : List Char) (hc : c.isDigit = true)
    (hd : ∀ x ∈ ds, x.isDigit = true) (s : List Nat) (acc : List NTok) :
    List.foldl pushChar (NTok.str s :: acc) (c :: ds) =
      NTok.num (digitRunVal (c :: ds)) :: NTok.str s :: acc := by
  simp only [List.foldl_cons]
  rw [show pushChar (NTok.str s :: acc) c = NTok.num (c.toNat - 48) :: NTok.str s :: acc by
    simp [pushChar, hc]]
  rw [foldl_pushChar_num_run ds hd]
  congr 1
  simp [digitRunVal]

/-- The natsort key of the frame filename for index `i`: the stem tokens,
the numeric value `i` of the digit run (whatever the padding), and `.png`. -/
theorem natkey_frameName (i : Nat) :
    natkey (frameName i) = stemToks ++ [NTok.num i, pngTok] := by
  unfold natkey frameName
  rw [List.foldl_append, List.foldl_append]
  rw [show List.foldl pushChar [] frameStem = NTok.str [95] :: NTok.num 0 ::
      NTok.str [95, 67, 73, 73, 95, 112, 118, 95, 100, 105, 97, 103, 114, 97,
                109, 95, 119, 105, 116, 104, 95, 109, 111, 109, 101, 110, 116] ::
      NTok.num 7538 :: NTok.str [78, 71, 67] :: [] from by decide]
  rcases hp : pad3Chars i with _ | ⟨c, ds⟩
  · exact absurd hp (pad3Chars_ne_nil i)
  · have hdig := pad3Chars_isDigit i
    rw [hp] at hdig
    rw [foldl_pushChar_str_run c ds (hdig c (List.mem_cons_self c ds))
      (fun x hx => hdig x (List.mem_cons_of_mem c hx))]
    have hval : digitRunVal (c :: ds) = i := by
      rw [← hp]; exact digitRunVal_pad3Chars i
    rw [hval]
    rfl

theorem keyLTb_append_same (K x y : List NTok) :
    keyLTb (K ++ x) (K ++ y) = keyLTb x y := by
  induction K with
  | nil => rfl
  | cons t ts ih => simp [keyLTb, tokLTb_irrefl t, ih]

/-- Comparing two frame filenames under the natsort order compares their
indices as numbers. -/
theorem keyLTb_frameName (i j : Nat) :
    keyLTb (natkey (frameName i)) (natkey (frameName j)) = decide (i < j) := by
  rw [natkey_frameName, natkey_frameName, keyLTb_append_same]
  by_cases h : i < j
  · simp [keyLTb, tokLTb, h]
  · by_cases h2 : j < i
    · simp [keyLTb, tokLTb, h, h2]
    · have hij : i = j := by omega
      subst hij
      simp [keyLTb, tokLTb_irrefl, h]

theorem natLE_frameName (i j : Nat) : natLE (frameName i) (frameName j) ↔ i ≤ j := by
  unfold natLE
  rw [keyLTb_frameName]
  simp only [decide_eq_false_iff_not]
  exact Nat.not_lt

theorem frameName_inj {i j : Nat} (h : frameName i = frameName j) : i = j := by
  have hk := congrArg natkey h
  rw [natkey_frameName, natkey_frameName] at hk
  have h2 := List.append_cancel_left hk
  simpa using h2

theorem sorted_frameNames (B : Nat) : List.Sorted natLE (frameNames B) := by
  unfold frameNames
  exact List.pairwise_map.mpr ((List.pairwise_lt_range B).imp
    (fun h => (natLE_frameName _ _).mpr (Nat.le_of_lt h)))

/-- A sorted list is determined by its multiset of elements, given
antisymmetry of the order on those elements. -/
theorem sorted_perm_eq {α : Type} {r : α → α → Prop} :
    ∀ {l₁ l₂ : List α}, l₁.Perm l₂ → l₁.Sorted r → l₂.Sorted r →
      (∀ a ∈ l₁, ∀ b ∈ l₁, r a b → r b a → a = b) → l₁ = l₂ := by
  intro l₁
  induction l₁ with
  | nil =>
    intro l₂ p _ _ _
    exact (p.symm.eq_nil).symm
  | cons a t ih =>
    intro l₂ p s₁ s₂ anti
    cases l₂ with
    | nil => simpa using p.eq_nil
    | cons b t₂ =>
      have hab : a = b := by
        have ha2 : a ∈ b :: t₂ := p.subset (List.mem_cons_self a t)
        have hb1 : b ∈ a :: t := p.symm.subset (List.mem_cons_self b t₂)
        rcases List.mem_cons.mp ha2 with h | ha3
        · exact h
        rcases List.mem_cons.mp hb1 with h | hb3
        · exact h.symm
        have rab : r a b := (List.sorted_cons.mp s₁).1 b hb3
        have rba : r b a := (List.sorted_cons.mp s₂).1 a ha3
        exact anti a (List.mem_cons_self a t) b (List.mem_cons_of_mem a hb3) rab rba
      subst hab
      have p' := p.cons_inv
      have ht := ih p' (List.sorted_cons.mp s₁).2 (List.sorted_cons.mp s₂).2
        (fun x hx y hy => anti x (List.mem_cons_of_mem a hx) y (List.mem_cons_of_mem a hy))
      rw [ht]

/-- Collecting any arrangement of the frame files of a full run recovers
them in generation order. -/
theorem collect_perm_frameNames {B : Nat} {L : List (List Char)}
    (h : L.Perm (frameNames B)) : collect L = frameNames B := by
  have hs : (natsorted L).Perm (frameNames B) :=
    (List.perm_insertionSort natLE L).trans h
  have hmem : ∀ x ∈ natsorted L, ∃ i, x = frameName i := by
    intro x hx
    have hx2 := hs.subset hx
    unfold frameNames at hx2
    rcases List.mem_map.mp hx2 with ⟨i, -, rfl⟩
    exact ⟨i, rfl⟩
  have heq : natsorted L = frameNames B := by
    haveI := natLE_total
    haveI := natLE_trans
    apply sorted_perm_eq hs (List.sorted_insertionSort natLE L) (sorted_frameNames B)
    intro x hx y hy r1 r2
    rcases hmem x hx with ⟨i, rfl⟩
    rcases hmem y hy with ⟨j, rfl⟩
    unfold natLE at r1 r2
    rw [keyLTb_frameName] at r1 r2
    simp only [decide_eq_false_iff_not] at r1 r2
    rw [show i = j by omega]
  unfold collect
  rw [heq]
  apply List.filter_eq_self.mpr
  intro x hx
  unfold frameNames at hx
  rcases List.mem_map.mp hx with ⟨i, -, rfl⟩
  exact endsWithPng_frameName i

theorem frameName_ne_of_lt {i j : Nat} (h : i < j) : frameName i ≠ frameName j := by
  intro he
  rw [frameName_inj he] at h
  exact Nat.lt_irrefl j h

theorem nodup_frameNames (B : Nat) : (frameNames B).Nodup := by
  unfold frameNames
  exact List.pairwise_map.mpr ((List.pairwise_lt_range B).imp frameName_ne_of_lt)

theorem list_range_map_sum_eq [AddCommMonoid α] (n : Nat) (f : Nat → α) :
    ((List.range n).map f).sum = ∑ v ∈ Finset.range n, f v := by
  induction n with
  | zero => simp
  | succ m ih =>
    rw [List.range_succ, List.map_append, List.sum_append, Finset.sum_range_succ, ih]
    simp

/-- The hand-computed 2×2×2 check of the projection: each entry sums the
two spectral samples `100·v + 10·a + b`. -/
theorem moment0_cube222 :
    (moment0_map cube222).entry 0 0 = 100 ∧ (moment0_map cube222).entry 0 1 = 102 ∧
    (moment0_map cube222).entry 1 0 = 120 ∧ (moment0_map cube222).entry 1 1 = 122 := by
  refine ⟨?_, ?_, ?_, ?_⟩ <;> decide

/-- Claim C1: for every set of frame files produced by a successful run over
a cube with `B` cut indices — any arrangement `L` of `frameNames B` —
`collect` returns the filenames sorted by the numeric value of the embedded
index (so index 10 sorts after index 9 regardless of digit count), and this
discovered order equals the generation order `0, 1, ..., B-1`. -/
theorem claim_C1_collect_generation_order (B : Nat) (L : List (List Char))
    (h : L.Perm (frameNames B)) : collect L = frameNames B :=
  collect_perm_frameNames h

/-- Witness for C1: a shuffled listing of the 11 frames of a run with
`B = 11` (including the 9/10 pair) is collected in generation order. -/
theorem claim_C1_witness :
    ([frameName 10, frameName 2, frameName 0, frameName 9, frameName 1,
      frameName 3, frameName 5, frameName 7, frameName 4, frameName 8,
      frameName 6] : List (List Char)).Perm (frameNames 11) ∧
    collect [frameName 10, frameName 2, frameName 0, frameName 9, frameName 1,
      frameName 3, frameName 5, frameName 7, frameName 4, frameName 8,
      frameName 6] = frameNames 11 := by
  have h : ([frameName 10, frameName 2, frameName 0, frameName 9, frameName 1,
      frameName 3, frameName 5, frameName 7, frameName 4, frameName 8,
      frameName 6] : List (List Char)).Perm (frameNames 11) := by decide
  exact ⟨h, claim_C1_collect_generation_order 11 _ h⟩

/-- Claim C2: the driver iterates `i` from 0 to `B-1` inclusive in ascending
order, composing one frame per index from the extracted slice; it produces
exactly `B` frame files whose indices cover `0..B-1` with no gaps or
duplicates, under pairwise-distinct names, and reports `B` as the count. -/
theorem claim_C2_driver_covers_indices [AddCommMonoid α] (c : Cube α) :
    (sequenceDriverRun c).2 = c.B ∧
    ((sequenceDriverRun c).1).map Frame.idx = List.range c.B ∧
    ((sequenceDriverRun c).1).map Frame.name = frameNames c.B ∧
    (((sequenceDriverRun c).1).map Frame.name).Nodup ∧
    ∀ f ∈ (sequenceDriverRun c).1,
      f = composeFrame (moment0_map c) (sliceAt c f.idx) f.idx := by
  refine ⟨rfl, ?_, ?_, ?_, ?_⟩
  · simp [sequenceDriverRun, composeFrame, List.map_map, Function.comp_def]
  · simp [sequenceDriverRun, composeFrame, List.map_map, Function.comp_def, frameNames]
  · have : ((sequenceDriverRun c).1).map Frame.name = frameNames c.B := by
      simp [sequenceDriverRun, composeFrame, List.map_map, Function.comp_def, frameNames]
    rw [this]
    exact nodup_frameNames c.B
  · intro f hf
    simp only [sequenceDriverRun, List.mem_map, List.mem_range] at hf
    rcases hf with ⟨i, -, rfl⟩
    rfl

/-- Claim C3: the projection `moment0_map` has shape `(A, B)`, each entry is
the exact sum of `cube[v,a,b]` over the spectral axis `v ∈ [0, V)`, and the
driver computes it once, every composed frame holding that same map. -/
theorem claim_C3_moment0_reduce [AddCommMonoid α] (c : Cube α) :
    (moment0_map c).rows = c.A ∧ (moment0_map c).cols = c.B ∧
    (∀ a b, (moment0_map c).entry a b = ∑ v ∈ Finset.range c.V, c.data v a b) ∧
    ∀ f ∈ (sequenceDriverRun c).1, f.panel1 = moment0_map c := by
  refine ⟨rfl, rfl, fun a b => list_range_map_sum_eq c.V _, ?_⟩
  intro f hf
  simp only [sequenceDriverRun, List.mem_map, List.mem_range] at hf
  rcases hf with ⟨i, -, rfl⟩
  rfl

/-- Claim C4 counterexample: on a 1×1×1 cube, `data[:, :, -1]` succeeds —
numpy's negative indexing wraps to the last column — though `-1` lies
outside `[0, B)`, where the claim requires an `IndexError`. -/
theorem claim_C4_counterexample :
    pv_slice cube1 (-1) = Except.ok (sliceAt cube1 0) ∧
    Except.ok (sliceAt cube1 0) ≠
      (Except.error PyErr.indexError : Except PyErr (Arr2 Int)) := by
  constructor
  · rfl
  · intro h
    exact Except.noConfusion h

/-- Claim C4 (amended): `extract(cube, i)` returns the slice with
`Slice[v,a] = cube[v,a,i]` for `0 ≤ i < B`; it fails with `IndexError`
only for `i ≥ B` or `i < -B`; for `-B ≤ i < 0` numpy's negative indexing
selects column `B + i` without error. -/
theorem claim_C4_pv_slice_indexing (c : Cube α) (i : Int) :
    (0 ≤ i → i < (c.B : Int) →
      pv_slice c i = Except.ok (sliceAt c i.toNat) ∧
      ∀ v a, (sliceAt c i.toNat).entry v a = c.data v a i.toNat) ∧
    ((c.B : Int) ≤ i ∨ i < -(c.B : Int) →
      pv_slice c i = Except.error PyErr.indexError) ∧
    (-(c.B : Int) ≤ i → i < 0 →
      pv_slice c i = Except.ok (sliceAt c (i + c.B).toNat)) := by
  refine ⟨?_, ?_, ?_⟩
  · intro h1 h2
    constructor
    · unfold pv_slice
      rw [if_pos ⟨h1, h2⟩]
    · intro v a
      rfl
  · intro h
    unfold pv_slice
    rw [if_neg (by omega), if_neg (by omega)]
  · intro h1 h2
    unfold pv_slice
    rw [if_neg (by omega), if_pos ⟨h1, h2⟩]

/-- Witness for the amended C4: the three regimes at concrete indices on a
1×1×1 cube. -/
theorem claim_C4_witness :
    (pv_slice cube1 0 = Except.ok (sliceAt cube1 0) ∧
      ∀ v a, (sliceAt cube1 0).entry v a = cube1.data v a 0) ∧
    pv_slice cube1 2 = Except.error PyErr.indexError ∧
    pv_slice cube1 (-1) = Except.ok (sliceAt cube1 0) := by
  refine ⟨(claim_C4_pv_slice_indexing cube1 0).1 (by decide) (by decide),
    (claim_C4_pv_slice_indexing cube1 2).2.1 (Or.inl (by decide)),
    (claim_C4_pv_slice_indexing cube1 (-1)).2.2 (by decide) (by decide)⟩

/-- Claim C5 counterexample: with `B = 1001 > 10³`, generation runs to
completion — 1001 frames, count 1001 reported — rather than stopping on a
`B ≤ 10^width` assertion; index 1000 is simply rendered with four digits. -/
theorem claim_C5_counterexample :
    ((sequenceDriverRun cube1001).1).length = 1001 ∧
    (sequenceDriverRun cube1001).2 = 1001 ∧
    pad3Chars 1000 = ['1', '0', '0', '0'] := by
  refine ⟨?_, by rfl, by decide⟩
  simp [sequenceDriverRun, cube1001]

/-- Claim C5 (amended): each frame is serialized under the deterministic
name `stem ++ (i zero-padded to width 3) ++ '.png'`; the script contains no
`B ≤ 10^width` assertion — instead the padded field is at least 3 digits
and parses back to `i` for every `i` (it widens, never truncates), so the
index never overflows the padding. -/
theorem claim_C5_frame_naming (i : Nat) :
    frameName i = frameStem ++ pad3Chars i ++ pngExt ∧
    3 ≤ (pad3Chars i).length ∧
    digitRunVal (pad3Chars i) = i :=
  ⟨rfl, length_pad3Chars i, digitRunVal_pad3Chars i⟩

/-- Claim C6 counterexample: a second frame with different dimensions from
the first is still written to the video opened at the first frame's size —
assembly succeeds, and no `DimensionMismatchError` path exists. -/
theorem claim_C6_counterexample :
    assemblyPhase [fileA, fileB] read2 = Except.ok
      { width := 200, height := 100, fps := 10, frames := [imgBig, imgSmall] } ∧
    imgSmall.width ≠ imgBig.width := by
  constructor
  · rfl
  · decide

/-- Claim C6 (amended): the assembler fixes the video's pixel dimensions
from the first collected frame and passes every collected frame to the
writer unchanged — frames are never resized, but no dimension comparison is
made and no error is raised on a mismatch. -/
theorem claim_C6_no_dimension_check (l : List (List Char)) (r : List Char → Image)
    (f0 : List Char) (rest : List (List Char)) (h : collect l = f0 :: rest) :
    assemblyPhase l r = Except.ok
      { width := (r f0).width, height := (r f0).height, fps := 10,
        frames := (f0 :: rest).map r } := by
  unfold assemblyPhase
  rw [h]

/-- Witness for the amended C6 with two frames of different sizes. -/
theorem claim_C6_witness :
    assemblyPhase [fileA, fileB] read2 = Except.ok
      { width := (read2 fileA).width, height := (read2 fileA).height, fps := 10,
        frames := ([fileA, fileB] : List (List Char)).map read2 } :=
  claim_C6_no_dimension_check [fileA, fileB] read2 fileA [fileB] (by decide)

/-- Claim C7 counterexample: a `.png` file that does not carry the frame
naming scheme's stem is still kept by the collector — the filter checks
only the `.png` suffix, not the scheme. -/
theorem claim_C7_counterexample :
    collect [otherPng] = [otherPng] ∧
    otherPng.take frameStem.length ≠ frameStem := by
  constructor <;> decide

/-- Claim C7 (amended): the collector keeps exactly the directory entries
whose name ends in `.png` (in natsort order); membership requires only that
suffix, so any stray `.png` not produced by the generation phase is kept. -/
theorem claim_C7_collect_keeps_png (l : List (List Char)) (f : List Char) :
    f ∈ collect l ↔ f ∈ l ∧ endsWithPng f = true := by
  unfold collect natsorted
  rw [List.mem_filter]
  constructor
  · rintro ⟨hm, he⟩
    exact ⟨(List.perm_insertionSort natLE l).subset hm, he⟩
  · rintro ⟨hm, he⟩
    exact ⟨(List.perm_insertionSort natLE l).symm.subset hm, he⟩

/-- Witness for the amended C7: the stray png is kept. -/
theorem claim_C7_witness : otherPng ∈ collect [otherPng] :=
  (claim_C7_collect_keeps_png [otherPng] otherPng).mpr ⟨by decide, by decide⟩

/-- Claim C8: when the collector's filter finds zero matching (`.png`)
files, the assembly phase fails with the empty-sequence error (`ValueError`)
before any encoding: the result is the error, so no video value — the
output container is never opened — on this path. -/
theorem claim_C8_empty_sequence (l : List (List Char)) (r : List Char → Image)
    (h : l.filter endsWithPng = []) :
    assemblyPhase l r = Except.error PyErr.valueError := by
  have hc : collect l = [] := by
    unfold collect natsorted
    have hp := (List.perm_insertionSort natLE l).filter endsWithPng
    rw [h] at hp
    exact hp.eq_nil
  unfold assemblyPhase
  rw [hc]

/-- Witness for C8: a directory holding only the output movie has no png,
and assembly raises before opening the writer. -/
theorem claim_C8_witness :
    assemblyPhase [movieFile] defaultRead = Except.error PyErr.valueError :=
  claim_C8_empty_sequence [movieFile] defaultRead (by decide)

/-- Claim C9 counterexample: phase 1 fails (`FileNotFoundError`), yet the
script merely prints the caught error, the assembly phase still runs — here
encoding a stale png into a video — and the exit status is 0, not non-zero. -/
theorem claim_C9_counterexample :
    (wholeScript (Except.error PyErr.fileNotFound) [fileA] read2).1 =
      [Msg.errorCaught PyErr.fileNotFound] ∧
    (wholeScript (Except.error PyErr.fileNotFound) [fileA] read2).2 =
      Except.ok { width := 200, height := 100, fps := 10, frames := [imgBig] } ∧
    scriptExitCode (wholeScript (Except.error PyErr.fileNotFound) [fileA] read2).2 = 0 := by
  refine ⟨rfl, rfl, rfl⟩

/-- Claim C9 (amended): a frame-generation failure is caught and only
printed; the assembly phase executes regardless — its result does not
depend on phase 1's outcome — and the run's exit status is zero whenever
the assembly phase itself succeeds. -/
theorem claim_C9_generation_failure_swallowed (e : PyErr) (p : Except PyErr Nat)
    (l : List (List Char)) (r : List Char → Image) :
    (wholeScript (Except.error e) l r).1 = [Msg.errorCaught e] ∧
    (wholeScript (Except.error e) l r).2 = (wholeScript p l r).2 ∧
    (scriptExitCode (wholeScript (Except.error e) l r).2 = 0 ↔
      ∃ v, assemblyPhase l r = Except.ok v) := by
  refine ⟨rfl, rfl, ?_⟩
  show scriptExitCode (assemblyPhase l r) = 0 ↔ _
  cases ha : assemblyPhase l r with
  | ok v => simp [scriptExitCode]
  | error e2 => simp [scriptExitCode]

/-- Claim C10: the frame filename map is injective on all of ℕ — for
`i ≥ 1000` the padding widens rather than truncates — so two distinct
indices never produce the same filename and no frame file is overwritten by
another index within a run. -/
theorem claim_C10_frameName_injective (i j : Nat) (h : frameName i = frameName j) :
    i = j :=
  frameName_inj h

/-- Witness for C10, applied across the padding-width boundary. -/
theorem claim_C10_witness : 1000 = 1000 ∧ frameName 1000 ≠ frameName 999 := by
  constructor
  · exact claim_C10_frameName_injective 1000 1000 rfl
  · decide

end PVMovie
